import Mathlib

/-!
# Revenue management problem: shallow embedding

Embedding of `src/revenue_management_problem.py`.

The Python module draws uniform variates from the process-wide random
source (`random.random()`). We model that source as a stream
`us : ℕ → ℝ` of uniform draws together with a cursor `k : ℕ`: each call
to a sampling primitive reads `us k` and returns the advanced cursor
`k + 1`, so "how many draws a routine consumes" is visible in the cursor
it returns. Python floats are modelled as real numbers, Python ints as `ℤ`
(or `ℕ` for `random.randint` results).
-/

/-- Python's `int(x)` conversion applied to a float: truncation toward
zero (floor for non-negative arguments, ceiling for negative ones). -/
noncomputable def pyInt (x : ℝ) : ℤ :=
  if 0 ≤ x then ⌊x⌋ else ⌈x⌉

/-- `exponential_sample(rate_param)`: draws `u = random.random()` (one draw,
at the cursor) and returns `math.log(1 - u) / (-rate_param)` together with
the advanced cursor. -/
noncomputable def exponential_sample (rate_param : ℝ) (us : ℕ → ℝ) (k : ℕ) : ℝ × ℕ :=
  (Real.log (1 - us k) / (-rate_param), k + 1)

/-- `gamma_sample(scale_param)`: the source delegates directly to
`exponential_sample(scale_param)`. -/
noncomputable def gamma_sample (scale_param : ℝ) (us : ℕ → ℝ) (k : ℕ) : ℝ × ℕ :=
  exponential_sample scale_param us k

/-- The state of `RevenueManagementProblem.__init__`: fixed period
parameters, the Monte Carlo trial count and the stored seed. -/
structure RevenueManagementProblem where
  nb_periods : ℕ
  prices : List ℤ
  mean_demands : List ℤ
  purchase_price : ℤ
  nb_simulations : ℕ
  seed : ℤ

/-- `RevenueManagementProblem(seed)`: prices `[100, 300, 400]`, mean
demands `[50, 20, 30]`, purchase cost `80`, `int(1e2)` simulations. -/
def RevenueManagementProblem.init (seed : ℤ) : RevenueManagementProblem :=
  ⟨3, [100, 300, 400], [50, 20, 30], 80, 100, seed⟩

/-- The same constructed state with the trial count replaced: used to
state properties for an arbitrary configured `nb_simulations`. -/
def RevenueManagementProblem.withSims (P : RevenueManagementProblem) (n : ℕ) :
    RevenueManagementProblem :=
  ⟨P.nb_periods, P.prices, P.mean_demands, P.purchase_price, n, P.seed⟩

/-- The list comprehension `[exponential_sample() for _ in range(n)]`
(rate 1.0): `n` sequential exponential draws, cursor advanced by `n`. -/
noncomputable def sampleY (us : ℕ → ℝ) (k : ℕ) : ℕ → List ℝ × ℕ
  | 0 => ([], k)
  | n + 1 =>
    let y := exponential_sample 1 us k
    let rest := sampleY us y.2 n
    (y.1 :: rest.1, rest.2)

/-- The inner period loop of `evaluate_solution`, one trial: walks the
price, mean-demand, reservation and `Y` lists in step, carrying the pair
(`remaining`, `sum_profit`).  Each period computes
`demand = int(mean_demands[j] * X * Y[j])`,
`available = max(remaining - reserves[j], 0)`,
`units_sold = min(available, demand)`, decrements `remaining` and adds
`prices[j] * units_sold` to the running profit. -/
noncomputable def runPeriods : List ℤ → List ℤ → List ℤ → ℝ → List ℝ → ℤ → ℝ → ℤ × ℝ
  | p :: ps, m :: ms, r :: rs, x, y :: ys, remaining, acc =>
    let demand := pyInt ((m : ℝ) * x * y)
    let available := max (remaining - r) 0
    let units_sold := min available demand
    runPeriods ps ms rs x ys (remaining - units_sold)
      (acc + ((p * units_sold : ℤ) : ℝ))
  | _, _, _, _, _, remaining, acc => (remaining, acc)

/-- The Monte Carlo loop of `evaluate_solution`: for each of `n` trials,
draw `X = gamma_sample()` then the three `Y` draws, reset `remaining` to
`purchase`, run the period loop, and accumulate into `sum_profit`.
Returns the accumulated `sum_profit` and the cursor after all draws. -/
noncomputable def simLoop (ps ms rs : List ℤ) (nper : ℕ) (purchase : ℤ) (us : ℕ → ℝ) :
    ℕ → ℕ → ℝ → ℝ × ℕ
  | k, 0, acc => (acc, k)
  | k, n + 1, acc =>
    let x := gamma_sample 1 us k
    let y := sampleY us x.2 nper
    let t := runPeriods ps ms rs x.1 y.1 purchase acc
    simLoop ps ms rs nper purchase us y.2 n t.2

/-- `evaluate_solution(candidate)`.  Raising `ValueError` is modelled as
`Except.error` carrying the message; a normal return is `Except.ok` of the
returned float paired with the cursor after all consumed draws. -/
noncomputable def RevenueManagementProblem.evaluate_solution (self : RevenueManagementProblem)
    (candidate : List ℤ) (us : ℕ → ℝ) (k : ℕ) : Except String (ℝ × ℕ) :=
  if candidate.length ≠ self.nb_periods then
    Except.error
      ("Candidate solution must have " ++ toString self.nb_periods ++ " values.")
  else
    let purchase := candidate.getD 0 0
    let reserves := candidate.drop 1 ++ [0]
    if candidate.getD 1 0 > candidate.getD 0 0 ∨
        candidate.getD 2 0 > candidate.getD 1 0 then
      Except.ok (-1e9, k)
    else
      let r := simLoop self.prices self.mean_demands reserves self.nb_periods
        purchase us k self.nb_simulations 0
      Except.ok (r.1 / (self.nb_simulations : ℝ) -
        ((self.purchase_price * purchase : ℤ) : ℝ), r.2)

/-- Model of the standard library's `random.randint(a, b)`: a uniform
integer in `[a, b]`, driven by one draw `r` from a stream of naturals
(the value is `a + r % (b - a + 1)`, always within the bounds). -/
def randint (a b : ℕ) (r : ℕ) : ℕ :=
  a + r % (b + 1 - a)

/-- Per-trial sales profit as the specification words it: walk periods in
order, `demand_j = ⌊mean_demand[j] * X * Y[j]⌋`,
`available_j = max(remaining - reserves[j], 0)`,
`units_sold_j = min(available_j, demand_j)`, decrement `remaining`,
accumulate `price[j] * units_sold_j`. -/
noncomputable def specProfit : List ℤ → List ℤ → List ℤ → ℝ → List ℝ → ℤ → ℤ
  | p :: ps, m :: ms, r :: rs, x, y :: ys, remaining =>
    let demand := ⌊(m : ℝ) * x * y⌋
    let available := max (remaining - r) 0
    let units_sold := min available demand
    p * units_sold + specProfit ps ms rs x ys (remaining - units_sold)
  | _, _, _, _, _, _ => 0

/-- The profit of the trial whose first draw sits at cursor `pos`:
`X` from the draw at `pos`, the `nper` per-period `Y` values from the
following draws. -/
noncomputable def trialProfit (ps ms rs : List ℤ) (nper : ℕ) (purchase : ℤ)
    (us : ℕ → ℝ) (pos : ℕ) : ℤ :=
  specProfit ps ms rs (Real.log (1 - us pos) / (-1))
    ((sampleY us (pos + 1) nper).1) purchase

/-- The claim's per-trial profit for a candidate `[purchase, r2, r3]` of
this problem instance: prices `[100, 300, 400]`, mean demands
`[50, 20, 30]`, reserves `[r2, r3, 0]`, one shared `X` from the draw at
`pos` and `Y[j]` from the draws at `pos + 1`, `pos + 2`, `pos + 3`. -/
noncomputable def specTrialProfit (purchase r2 r3 : ℤ) (us : ℕ → ℝ) (pos : ℕ) : ℤ :=
  specProfit [100, 300, 400] [50, 20, 30] [r2, r3, 0]
    (Real.log (1 - us pos) / (-1))
    [Real.log (1 - us (pos + 1)) / (-1), Real.log (1 - us (pos + 2)) / (-1),
      Real.log (1 - us (pos + 3)) / (-1)]
    purchase

/-- Modelled from the spec: a gamma(shape 1, scale) variate "is
mathematically identical to an exponential variate with rate `1/scale`",
obtained by the inverse-CDF transform from the uniform draw `u`. -/
noncomputable def gamma_shape1_spec (scale u : ℝ) : ℝ :=
  Real.log (1 - u) / (-(1 / scale))

/-- The trace of the `remaining` counter through one trial: the value
entering each period (computed exactly as the period loop computes it)
followed by the value after the last period. -/
noncomputable def remTrace : List ℤ → List ℤ → List ℤ → ℝ → List ℝ → ℤ → List ℤ
  | _p :: ps, m :: ms, r :: rs, x, y :: ys, remaining =>
    let demand := pyInt ((m : ℝ) * x * y)
    let available := max (remaining - r) 0
    let units_sold := min available demand
    remaining :: remTrace ps ms rs x ys (remaining - units_sold)
  | _, _, _, _, _, remaining => [remaining]

/-- `random_solution()`: three sequential bounded `randint` draws,
`purchase ∈ [0, 100]`, `reserve_p2 ∈ [0, purchase]`,
`reserve_p3 ∈ [0, reserve_p2]`; consumes three draws from the stream. -/
def random_solution (rs : ℕ → ℕ) (k : ℕ) : List ℕ × ℕ :=
  let purchase := randint 0 100 (rs k)
  let reserve_p2 := randint 0 purchase (rs (k + 1))
  let reserve_p3 := randint 0 reserve_p2 (rs (k + 2))
  ([purchase, reserve_p2, reserve_p3], k + 3)

/-! ## Helper lemmas -/

lemma pyInt_of_nonneg {x : ℝ} (h : 0 ≤ x) : pyInt x = ⌊x⌋ := if_pos h

lemma expVal_nonneg {rate u : ℝ} (hr : 0 < rate) (h0 : 0 ≤ u) (h1 : u < 1) :
    0 ≤ Real.log (1 - u) / (-rate) := by
  have hlog : Real.log (1 - u) ≤ 0 :=
    Real.log_nonpos (by linarith) (by linarith)
  rw [div_neg, neg_nonneg]
  exact div_nonpos_of_nonpos_of_nonneg hlog hr.le

lemma sampleY_eq (us : ℕ → ℝ) : ∀ (n k : ℕ),
    sampleY us k n =
      ((List.range n).map fun j => Real.log (1 - us (k + j)) / (-1), k + n) := by
  intro n
  induction n with
  | zero => intro k; simp [sampleY]
  | succ n ih =>
    intro k
    simp only [sampleY, exponential_sample, ih (k + 1), List.range_succ_eq_map,
      List.map_cons, List.map_map, Prod.mk.injEq, List.cons.injEq, Nat.add_zero]
    refine ⟨⟨trivial, ?_⟩, by omega⟩
    apply List.map_congr_left
    intro j _
    simp only [Function.comp_apply]
    have hj : k + 1 + j = k + Nat.succ j := by omega
    rw [hj]

lemma runPeriods_snd (ps : List ℤ) : ∀ (ms rs : List ℤ) (x : ℝ) (ys : List ℝ)
    (rem : ℤ) (acc : ℝ), (∀ m ∈ ms, (0:ℤ) ≤ m) → 0 ≤ x → (∀ y ∈ ys, (0:ℝ) ≤ y) →
    (runPeriods ps ms rs x ys rem acc).2 = acc + ((specProfit ps ms rs x ys rem : ℤ) : ℝ) := by
  induction ps with
  | nil => intro ms rs x ys rem acc _ _ _; simp [runPeriods, specProfit]
  | cons p ps ih =>
    intro ms rs x ys rem acc hm hx hy
    match ms, rs, ys with
    | [], _, _ => simp [runPeriods, specProfit]
    | m :: ms, [], _ => simp [runPeriods, specProfit]
    | m :: ms, r :: rs, [] => simp [runPeriods, specProfit]
    | m :: ms, r :: rs, y :: ys =>
      have hm0 : (0:ℝ) ≤ (m:ℝ) := by
        have := hm m (by simp)
        exact_mod_cast this
      have hmx : (0:ℝ) ≤ (m:ℝ) * x * y :=
        mul_nonneg (mul_nonneg hm0 hx) (hy y (by simp))
      simp only [runPeriods, specProfit, pyInt_of_nonneg hmx]
      rw [ih ms rs x ys _ _ (fun a ha => hm a (by simp [ha])) hx
        (fun a ha => hy a (by simp [ha]))]
      push_cast
      ring

lemma sampleY_nonneg (us : ℕ → ℝ) (hu : ∀ i, 0 ≤ us i ∧ us i < 1) (n k : ℕ) :
    ∀ y ∈ (sampleY us k n).1, (0:ℝ) ≤ y := by
  rw [sampleY_eq]
  intro y hy
  simp only [List.mem_map, List.mem_range] at hy
  obtain ⟨j, _, rfl⟩ := hy
  exact expVal_nonneg one_pos (hu (k + j)).1 (hu (k + j)).2

lemma simLoop_eq (ps ms rs : List ℤ) (nper : ℕ) (purchase : ℤ) (us : ℕ → ℝ)
    (hm : ∀ m ∈ ms, (0:ℤ) ≤ m) (hu : ∀ i, 0 ≤ us i ∧ us i < 1) :
    ∀ (n k : ℕ) (acc : ℝ),
      simLoop ps ms rs nper purchase us k n acc =
        (acc + ∑ t in Finset.range n,
          ((trialProfit ps ms rs nper purchase us (k + (nper + 1) * t) : ℤ) : ℝ),
         k + (nper + 1) * n) := by
  intro n
  induction n with
  | zero => intro k acc; simp [simLoop]
  | succ n ih =>
    intro k acc
    have hx : 0 ≤ Real.log (1 - us k) / (-1) :=
      expVal_nonneg one_pos (hu k).1 (hu k).2
    have hy := sampleY_nonneg us hu nper (k + 1)
    have hs2 : (sampleY us (k + 1) nper).2 = k + 1 + nper := by rw [sampleY_eq]
    simp only [simLoop, gamma_sample, exponential_sample]
    rw [hs2, runPeriods_snd ps ms rs _ _ purchase acc hm hx hy, ih (k + 1 + nper) _]
    simp only [Prod.mk.injEq, trialProfit]
    constructor
    · rw [Finset.sum_range_succ']
      have hterm : ∀ t ∈ Finset.range n,
          ((specProfit ps ms rs (Real.log (1 - us (k + (nper + 1) * (t + 1))) / (-1))
              ((sampleY us (k + (nper + 1) * (t + 1) + 1) nper).1) purchase : ℤ) : ℝ)
            = ((specProfit ps ms rs
                (Real.log (1 - us (k + 1 + nper + (nper + 1) * t)) / (-1))
                ((sampleY us (k + 1 + nper + (nper + 1) * t + 1) nper).1) purchase : ℤ) : ℝ) := by
        intro t _
        have harg : k + (nper + 1) * (t + 1) = k + 1 + nper + (nper + 1) * t := by ring
        rw [harg]
      rw [Finset.sum_congr rfl hterm]
      norm_num
      ring
    · ring

lemma trialProfit_eq_spec (p r2 r3 : ℤ) (us : ℕ → ℝ) (pos : ℕ) :
    trialProfit [100, 300, 400] [50, 20, 30] [r2, r3, 0] 3 p us pos =
      specTrialProfit p r2 r3 us pos := by
  simp only [trialProfit, specTrialProfit, sampleY, exponential_sample]

lemma evaluate_closed_form (s : ℤ) (n : ℕ) (p r2 r3 : ℤ) (us : ℕ → ℝ) (k : ℕ)
    (hu : ∀ i, 0 ≤ us i ∧ us i < 1) (h2 : r2 ≤ p) (h3 : r3 ≤ r2) :
    ((RevenueManagementProblem.init s).withSims n).evaluate_solution [p, r2, r3] us k =
      Except.ok
        ((∑ t in Finset.range n, ((specTrialProfit p r2 r3 us (k + 4 * t) : ℤ) : ℝ)) / (n : ℝ)
          - 80 * (p : ℝ), k + 4 * n) := by
  have hm : ∀ m ∈ ([50, 20, 30] : List ℤ), (0:ℤ) ≤ m := by
    intro m hm'
    simp only [List.mem_cons, List.not_mem_nil, or_false] at hm'
    rcases hm' with h | h | h <;> omega
  have hcond : ¬((r2 : ℤ) > p ∨ (r3 : ℤ) > r2) := by
    push_neg
    exact ⟨h2, h3⟩
  have hloop := simLoop_eq [100, 300, 400] [50, 20, 30] [r2, r3, 0] 3 p us hm hu n k 0
  simp only [RevenueManagementProblem.evaluate_solution, RevenueManagementProblem.withSims,
    RevenueManagementProblem.init, List.length_cons, List.length_nil, List.getD_cons_zero,
    List.getD_cons_succ, List.drop, List.cons_append, List.nil_append]
  rw [if_neg hcond, hloop]
  rw [if_neg (show ¬¬(3 = 3) from not_not_intro rfl)]
  dsimp only
  rw [Except.ok.injEq, Prod.mk.injEq]
  constructor
  · rw [zero_add]
    rw [Finset.sum_congr rfl
      (fun t _ => by rw [trialProfit_eq_spec p r2 r3 us (k + (3 + 1) * t)])]
    norm_num
  · norm_num

lemma specProfit_nonneg (ps : List ℤ) : ∀ (ms rs : List ℤ) (x : ℝ) (ys : List ℝ)
    (rem : ℤ), (∀ p ∈ ps, (0:ℤ) ≤ p) → (∀ m ∈ ms, (0:ℤ) ≤ m) → 0 ≤ x →
    (∀ y ∈ ys, (0:ℝ) ≤ y) → 0 ≤ specProfit ps ms rs x ys rem := by
  induction ps with
  | nil => intro ms rs x ys rem _ _ _ _; simp [specProfit]
  | cons p ps ih =>
    intro ms rs x ys rem hp hm hx hy
    match ms, rs, ys with
    | [], _, _ => simp [specProfit]
    | m :: ms, [], _ => simp [specProfit]
    | m :: ms, r :: rs, [] => simp [specProfit]
    | m :: ms, r :: rs, y :: ys =>
      have hm0 : (0:ℝ) ≤ (m:ℝ) := by
        have := hm m (by simp)
        exact_mod_cast this
      have hd : (0:ℤ) ≤ ⌊(m:ℝ) * x * y⌋ :=
        Int.floor_nonneg.mpr (mul_nonneg (mul_nonneg hm0 hx) (hy y (by simp)))
      have hsold : (0:ℤ) ≤ min (max (rem - r) 0) ⌊(m:ℝ) * x * y⌋ :=
        le_min (le_max_right _ _) hd
      have hp0 : (0:ℤ) ≤ p := hp p (by simp)
      have hrec := ih ms rs x ys (rem - min (max (rem - r) 0) ⌊(m:ℝ) * x * y⌋)
        (fun a ha => hp a (by simp [ha])) (fun a ha => hm a (by simp [ha])) hx
        (fun a ha => hy a (by simp [ha]))
      simp only [specProfit]
      exact add_nonneg (mul_nonneg hp0 hsold) hrec

lemma specProfit_zero_rem (ps : List ℤ) : ∀ (ms rs : List ℤ) (x : ℝ) (ys : List ℝ),
    (∀ m ∈ ms, (0:ℤ) ≤ m) → (∀ r ∈ rs, (0:ℤ) ≤ r) → 0 ≤ x →
    (∀ y ∈ ys, (0:ℝ) ≤ y) → specProfit ps ms rs x ys 0 = 0 := by
  induction ps with
  | nil => intro ms rs x ys _ _ _ _; simp [specProfit]
  | cons p ps ih =>
    intro ms rs x ys hm hr hx hy
    match ms, rs, ys with
    | [], _, _ => simp [specProfit]
    | m :: ms, [], _ => simp [specProfit]
    | m :: ms, r :: rs, [] => simp [specProfit]
    | m :: ms, r :: rs, y :: ys =>
      have hm0 : (0:ℝ) ≤ (m:ℝ) := by
        have := hm m (by simp)
        exact_mod_cast this
      have hd : (0:ℤ) ≤ ⌊(m:ℝ) * x * y⌋ :=
        Int.floor_nonneg.mpr (mul_nonneg (mul_nonneg hm0 hx) (hy y (by simp)))
      have hr0 : (0:ℤ) ≤ r := hr r (by simp)
      have hsold : min (max ((0:ℤ) - r) 0) ⌊(m:ℝ) * x * y⌋ = 0 := by
        have hmax : max ((0:ℤ) - r) 0 = 0 := max_eq_right (by omega)
        rw [hmax]
        exact min_eq_left hd
      simp only [specProfit, hsold]
      rw [show (0:ℤ) - 0 = 0 from rfl, ih ms rs x ys (fun a ha => hm a (by simp [ha]))
        (fun a ha => hr a (by simp [ha])) hx (fun a ha => hy a (by simp [ha]))]
      ring

lemma specTrialProfit_nonneg (p r2 r3 : ℤ) (us : ℕ → ℝ)
    (hu : ∀ i, 0 ≤ us i ∧ us i < 1) (pos : ℕ) :
    0 ≤ specTrialProfit p r2 r3 us pos := by
  apply specProfit_nonneg
  · intro a ha
    simp only [List.mem_cons, List.not_mem_nil, or_false] at ha
    rcases ha with h | h | h <;> omega
  · intro a ha
    simp only [List.mem_cons, List.not_mem_nil, or_false] at ha
    rcases ha with h | h | h <;> omega
  · exact expVal_nonneg one_pos (hu pos).1 (hu pos).2
  · intro y hy
    simp only [List.mem_cons, List.not_mem_nil, or_false] at hy
    rcases hy with h | h | h <;>
      · subst h
        exact expVal_nonneg one_pos (hu _).1 (hu _).2

lemma specTrialProfit_zero (us : ℕ → ℝ) (hu : ∀ i, 0 ≤ us i ∧ us i < 1) (pos : ℕ) :
    specTrialProfit 0 0 0 us pos = 0 := by
  apply specProfit_zero_rem
  · intro a ha
    simp only [List.mem_cons, List.not_mem_nil, or_false] at ha
    rcases ha with h | h | h <;> omega
  · intro a ha
    simp only [List.mem_cons, List.not_mem_nil, or_false] at ha
    rcases ha with h | h | h <;> omega
  · exact expVal_nonneg one_pos (hu pos).1 (hu pos).2
  · intro y hy
    simp only [List.mem_cons, List.not_mem_nil, or_false] at hy
    rcases hy with h | h | h <;>
      · subst h
        exact expVal_nonneg one_pos (hu _).1 (hu _).2

lemma remTrace_head (ps ms rs : List ℤ) (x : ℝ) (ys : List ℝ) (rem : ℤ) :
    (remTrace ps ms rs x ys rem).head? = some rem := by
  cases ps <;> cases ms <;> cases rs <;> cases ys <;> rfl

lemma remTrace_invariant (ps : List ℤ) : ∀ (ms rs : List ℤ) (x : ℝ) (ys : List ℝ)
    (rem : ℤ) (acc : ℝ), (∀ r ∈ rs, (0:ℤ) ≤ r) → 0 ≤ rem →
    (∀ a ∈ remTrace ps ms rs x ys rem, 0 ≤ a) ∧
    List.Chain' (fun a b => a - b ≤ a) (remTrace ps ms rs x ys rem) ∧
    (remTrace ps ms rs x ys rem).getLast? =
      some (runPeriods ps ms rs x ys rem acc).1 := by
  induction ps with
  | nil =>
    intro ms rs x ys rem acc _ h0
    refine ⟨?_, ?_, ?_⟩ <;> simp [remTrace, runPeriods, h0]
  | cons p ps ih =>
    intro ms rs x ys rem acc hr h0
    match ms, rs, ys with
    | [], _, _ => refine ⟨?_, ?_, ?_⟩ <;> simp [remTrace, runPeriods, h0]
    | m :: ms, [], _ => refine ⟨?_, ?_, ?_⟩ <;> simp [remTrace, runPeriods, h0]
    | m :: ms, r :: rs, [] => refine ⟨?_, ?_, ?_⟩ <;> simp [remTrace, runPeriods, h0]
    | m :: ms, r :: rs, y :: ys =>
      have hunf : remTrace (p :: ps) (m :: ms) (r :: rs) x (y :: ys) rem =
          rem :: remTrace ps ms rs x ys
            (rem - min (max (rem - r) 0) (pyInt ((m:ℝ) * x * y))) := rfl
      have hunf2 : (runPeriods (p :: ps) (m :: ms) (r :: rs) x (y :: ys) rem acc).1 =
          (runPeriods ps ms rs x ys
            (rem - min (max (rem - r) 0) (pyInt ((m:ℝ) * x * y)))
            (acc + ((p * min (max (rem - r) 0) (pyInt ((m:ℝ) * x * y)) : ℤ) : ℝ))).1 := rfl
      rw [hunf, hunf2]
      have hr0 : (0:ℤ) ≤ r := hr r (by simp)
      set sold := min (max (rem - r) 0) (pyInt ((m:ℝ) * x * y)) with hsold
      have hsoldle : sold ≤ rem :=
        le_trans (min_le_left _ _) (max_le (by omega) h0)
      obtain ⟨hmem, hch, hlast⟩ := ih ms rs x ys (rem - sold)
        (acc + ((p * sold : ℤ) : ℝ))
        (fun a ha => hr a (List.mem_cons_of_mem _ ha)) (by omega)
      refine ⟨?_, ?_, ?_⟩
      · intro a ha
        rcases List.mem_cons.mp ha with h | h
        · omega
        · exact hmem a h
      · rw [List.chain'_cons']
        refine ⟨?_, hch⟩
        intro b hb
        rw [remTrace_head] at hb
        have hb' : rem - sold = b := by simpa using hb
        subst hb'
        omega
      · have hne : remTrace ps ms rs x ys (rem - sold) ≠ [] := by
          intro hnil
          have hh := remTrace_head ps ms rs x ys (rem - sold)
          rw [hnil] at hh
          simp at hh
        obtain ⟨b, tl, htl⟩ : ∃ b tl, remTrace ps ms rs x ys (rem - sold) = b :: tl := by
          cases hcase : remTrace ps ms rs x ys (rem - sold) with
          | nil => exact absurd hcase hne
          | cons b tl => exact ⟨b, tl, rfl⟩
        rw [htl, List.getLast?_cons_cons]
        rw [htl] at hlast
        exact hlast

/-! ## Claim theorems -/

/-- C1: for a candidate `[purchase, reserve2, reserve3]` of exactly 3
integers with `reserve2 ≤ purchase` and `reserve3 ≤ reserve2`, and uniform
draws in `[0, 1)`, `evaluate_solution` returns the sum over `trial_count`
trials of the per-trial profits, divided by `trial_count`, minus
`purchase_cost * purchase` — where each trial draws one shared `X` and
per-period `Y[j]`, uses reserves `[reserve2, reserve3, 0]`, and for each
period `j = 0, 1, 2` in order computes `demand_j = ⌊mean_demand[j]*X*Y[j]⌋`,
`available_j = max(remaining - reserves[j], 0)`,
`units_sold_j = min(available_j, demand_j)`, decrements `remaining` and
accumulates `price[j] * units_sold_j` (see `specTrialProfit`). -/
theorem evaluate_mean_net_revenue (s : ℤ) (n : ℕ) (p r2 r3 : ℤ) (us : ℕ → ℝ)
    (k : ℕ) (hu : ∀ i, 0 ≤ us i ∧ us i < 1) (h2 : r2 ≤ p) (h3 : r3 ≤ r2) :
    ((RevenueManagementProblem.init s).withSims n).evaluate_solution [p, r2, r3] us k =
      Except.ok
        ((∑ t in Finset.range n, ((specTrialProfit p r2 r3 us (k + 4 * t) : ℤ) : ℝ)) / (n : ℝ)
          - 80 * (p : ℝ), k + 4 * n) :=
  evaluate_closed_form s n p r2 r3 us k hu h2 h3

/-- Witness for C1: candidate `[1, 0, 0]`, one trial, the all-zero draw
stream; every trial profit is zero, so the result is `-80` after
consuming 4 draws. -/
theorem evaluate_mean_net_revenue_witness :
    ((RevenueManagementProblem.init 0).withSims 1).evaluate_solution [1, 0, 0]
      (fun _ => 0) 0 = Except.ok (-80, 4) := by
  have h := evaluate_mean_net_revenue 0 1 1 0 0 (fun _ => 0) 0
    (fun _ => ⟨le_rfl, one_pos⟩) (by norm_num) le_rfl
  rw [h]
  norm_num [Finset.sum_range_one, specTrialProfit, specProfit, Real.log_one]

/-- C2: a candidate of exactly 3 values violating the reservation
ordering makes `evaluate_solution` return the sentinel `-1e9` as a normal
value (no error), with the cursor unchanged: no draw is consumed and no
simulation trial is run, regardless of the other candidate values. -/
theorem evaluate_infeasible_sentinel (s : ℤ) (n : ℕ) (c : List ℤ) (us : ℕ → ℝ)
    (k : ℕ) (hlen : c.length = 3)
    (hviol : c.getD 1 0 > c.getD 0 0 ∨ c.getD 2 0 > c.getD 1 0) :
    ((RevenueManagementProblem.init s).withSims n).evaluate_solution c us k =
      Except.ok (-1e9, k) := by
  simp only [RevenueManagementProblem.evaluate_solution, RevenueManagementProblem.withSims,
    RevenueManagementProblem.init, hlen]
  rw [if_neg (by norm_num), if_pos hviol]

/-- Witness for C2: the spec's example candidate `[10, 50, 5]`. -/
theorem evaluate_infeasible_sentinel_witness :
    ((RevenueManagementProblem.init 0).withSims 100).evaluate_solution [10, 50, 5]
      (fun _ => 0) 7 = Except.ok (-1e9, 7) :=
  evaluate_infeasible_sentinel 0 100 [10, 50, 5] (fun _ => 0) 7 rfl
    (by norm_num)

/-- C3: a candidate whose length is not 3 makes `evaluate_solution` raise
the invalid-input error synchronously: the result is `Except.error` (no
value is returned, no cursor is produced, so no draws are consumed and no
state changes), before any feasibility check or simulation. -/
theorem evaluate_invalid_length_error (s : ℤ) (n : ℕ) (c : List ℤ) (us : ℕ → ℝ)
    (k : ℕ) (hlen : c.length ≠ 3) :
    ((RevenueManagementProblem.init s).withSims n).evaluate_solution c us k =
      Except.error "Candidate solution must have 3 values." := by
  simp only [RevenueManagementProblem.evaluate_solution, RevenueManagementProblem.withSims,
    RevenueManagementProblem.init]
  rw [if_pos hlen]
  congr 1

/-- Witness for C3: the empty candidate. -/
theorem evaluate_invalid_length_error_witness :
    ((RevenueManagementProblem.init 0).withSims 100).evaluate_solution []
      (fun _ => 0) 0 = Except.error "Candidate solution must have 3 values." :=
  evaluate_invalid_length_error 0 100 [] (fun _ => 0) 0 (by norm_num)

/-- C4: a feasible candidate of non-negative integers with `purchase = 0`
(which forces `reserve2 = 0` and `reserve3 = 0`) evaluates to exactly `0`
for any positive trial count and any stream of uniform draws in `[0, 1)`:
every per-trial profit is zero and the purchase-cost term is zero. -/
theorem evaluate_zero_purchase_zero (s : ℤ) (n : ℕ) (p r2 r3 : ℤ) (us : ℕ → ℝ)
    (k : ℕ) (hu : ∀ i, 0 ≤ us i ∧ us i < 1) (hn : 0 < n) (hp : p = 0)
    (h2 : r2 ≤ p) (h3 : r3 ≤ r2) (h30 : 0 ≤ r3) :
    ((RevenueManagementProblem.init s).withSims n).evaluate_solution [p, r2, r3] us k =
      Except.ok (0, k + 4 * n) := by
  have h20 : r2 = 0 := by omega
  have h300 : r3 = 0 := by omega
  subst hp h20 h300
  rw [evaluate_closed_form s n 0 0 0 us k hu le_rfl le_rfl]
  rw [Finset.sum_congr rfl (fun t _ => by rw [specTrialProfit_zero us hu (k + 4 * t)])]
  norm_num

/-- Witness for C4: candidate `[0, 0, 0]`, one trial, all-zero draws. -/
theorem evaluate_zero_purchase_zero_witness :
    ((RevenueManagementProblem.init 0).withSims 1).evaluate_solution [0, 0, 0]
      (fun _ => 0) 0 = Except.ok (0, 4) := by
  have h := evaluate_zero_purchase_zero 0 1 0 0 0 (fun _ => 0) 0
    (fun _ => ⟨le_rfl, one_pos⟩) one_pos rfl le_rfl le_rfl le_rfl
  rw [h]

/-- C5: within one trial of `evaluate_solution` on a feasible candidate
`[purchase, r2, r3]` of non-negative integers (the trial runs
`runPeriods` with prices `[100, 300, 400]`, mean demands `[50, 20, 30]`,
reserves `[r2, r3, 0]` and `remaining` initialised to `purchase ≥ 0`),
the trace of the `remaining` counter (which records the value entering
each period and steps by exactly `units_sold_j`, so consecutive entries
`a, b` have `units_sold_j = a - b`) satisfies: every entry is
non-negative, and each period's units sold `a - b` is at most the
`remaining` value `a` entering that period; the trace ends at the
`remaining` value `runPeriods` returns. -/
theorem trial_inventory_invariant (p r2 r3 : ℤ) (x : ℝ) (ys : List ℝ) (acc : ℝ)
    (hp : 0 ≤ p) (h30 : 0 ≤ r3) (h32 : r3 ≤ r2) (h2 : r2 ≤ p) :
    (∀ a ∈ remTrace [100, 300, 400] [50, 20, 30] [r2, r3, 0] x ys p, 0 ≤ a) ∧
    List.Chain' (fun a b => a - b ≤ a)
      (remTrace [100, 300, 400] [50, 20, 30] [r2, r3, 0] x ys p) ∧
    (remTrace [100, 300, 400] [50, 20, 30] [r2, r3, 0] x ys p).getLast? =
      some (runPeriods [100, 300, 400] [50, 20, 30] [r2, r3, 0] x ys p acc).1 := by
  apply remTrace_invariant
  · intro r hr
    simp only [List.mem_cons, List.not_mem_nil, or_false] at hr
    rcases hr with h | h | h <;> omega
  · exact hp

/-- Witness for C5: candidate `[100, 50, 30]`, zero draws; the trace stays
non-negative, the step bound holds, and the trace ends at the loop's
remaining inventory. -/
theorem trial_inventory_invariant_witness :
    (0:ℤ) ≤ 100 ∧
    List.Chain' (fun a b => a - b ≤ a)
      (remTrace [100, 300, 400] [50, 20, 30] [50, 30, 0] 0 [0, 0, 0] 100) ∧
    (remTrace [100, 300, 400] [50, 20, 30] [50, 30, 0] 0 [0, 0, 0] 100).getLast? =
      some (runPeriods [100, 300, 400] [50, 20, 30] [50, 30, 0] 0 [0, 0, 0] 100 0).1 := by
  have h := trial_inventory_invariant 100 50 30 0 [0, 0, 0] 0 (by norm_num)
    (by norm_num) (by norm_num) (by norm_num)
  exact ⟨h.1 100 (by norm_num [remTrace, pyInt]), h.2.1, h.2.2⟩

/-- C6 (amended): `gamma_sample(scale)` delegates to
`exponential_sample(scale)` on the same uniform draw for every scale; the
resulting variate agrees with the spec's gamma(shape 1, scale) variate
(an exponential with rate `1/scale`, `gamma_shape1_spec`) when
`scale = 1`, the only value this system uses. -/
theorem gamma_sample_delegation (scale : ℝ) (us : ℕ → ℝ) (k : ℕ) :
    gamma_sample scale us k = exponential_sample scale us k ∧
    (scale = 1 → (gamma_sample scale us k).1 = gamma_shape1_spec scale (us k)) := by
  refine ⟨rfl, fun h => ?_⟩
  subst h
  simp [gamma_sample, exponential_sample, gamma_shape1_spec]

/-- Counterexample for C6 as stated: at `scale = 2` and uniform draw
`u = 1 - exp(-1)`, the code's `gamma_sample` returns `1/2` while a
gamma(shape 1, scale 2) variate from the same draw is `2`; so delegation
with `rate = scale` does not produce a gamma(shape 1, scale) variate for
every scale. -/
theorem gamma_sample_scale_counterexample :
    ¬((gamma_sample 2 (fun _ => 1 - Real.exp (-1)) 0).1 =
        gamma_shape1_spec 2 (1 - Real.exp (-1)) ∧
      gamma_sample 2 (fun _ => 1 - Real.exp (-1)) 0 =
        exponential_sample 2 (fun _ => 1 - Real.exp (-1)) 0) := by
  intro h
  have h1 := h.1
  simp only [gamma_sample, exponential_sample, gamma_shape1_spec] at h1
  rw [show (1:ℝ) - (1 - Real.exp (-1)) = Real.exp (-1) by ring, Real.log_exp] at h1
  norm_num at h1

/-- Witness for C6 (amended) at `scale = 1` and the all-zero draw stream. -/
theorem gamma_sample_delegation_witness :
    gamma_sample 1 (fun _ => 0) 0 = exponential_sample 1 (fun _ => 0) 0 ∧
    (gamma_sample 1 (fun _ => 0) 0).1 = gamma_shape1_spec 1 0 :=
  ⟨(gamma_sample_delegation 1 (fun _ => 0) 0).1,
    (gamma_sample_delegation 1 (fun _ => 0) 0).2 rfl⟩

/-- C7: for `rate > 0` and a uniform draw `u = us k ∈ [0, 1)`,
`exponential_sample` returns exactly `log (1 - u) / (-rate)` (consuming
one draw), the value is non-negative, and the logarithm's argument
`1 - u` is positive, so no domain error can occur. -/
theorem exponential_sample_inverse_cdf (rate : ℝ) (us : ℕ → ℝ) (k : ℕ)
    (hr : 0 < rate) (h0 : 0 ≤ us k) (h1 : us k < 1) :
    exponential_sample rate us k = (Real.log (1 - us k) / (-rate), k + 1) ∧
    0 ≤ (exponential_sample rate us k).1 ∧ 0 < 1 - us k :=
  ⟨rfl, expVal_nonneg hr h0 h1, by linarith⟩

/-- Witness for C7 at `rate = 1`, all-zero draws: the sample is
`log 1 / (-1) = 0`. -/
theorem exponential_sample_inverse_cdf_witness :
    exponential_sample 1 (fun _ => 0) 0 = (Real.log (1 - 0) / (-1), 1) ∧
    0 ≤ (exponential_sample 1 (fun _ => 0) 0).1 ∧ (0:ℝ) < 1 - 0 :=
  exponential_sample_inverse_cdf 1 (fun _ => 0) 0 one_pos le_rfl one_pos

/-- C8: `evaluate_solution` never reads the stored seed (the
`random.seed(self.seed)` line is commented out in the source), so two
evaluations of the same candidate with the same trial count, started from
the same random-source state (same stream and cursor), return exactly the
same result — the output is a deterministic function of the candidate and
the consumed random stream, whatever seeds the two instances store. -/
theorem evaluate_no_internal_seeding (s1 s2 : ℤ) (n : ℕ) (c : List ℤ)
    (us : ℕ → ℝ) (k : ℕ) :
    ((RevenueManagementProblem.init s1).withSims n).evaluate_solution c us k =
      ((RevenueManagementProblem.init s2).withSims n).evaluate_solution c us k := rfl

/-- C9: every triple produced by `random_solution` satisfies
`reserve3 ≤ reserve2 ≤ purchase ≤ 100` for every stream of underlying
draws (the values are naturals, so `0 ≤ reserve3` holds as well):
feasible by construction via sequential bounded sampling. -/
theorem random_solution_feasible (rs : ℕ → ℕ) (k : ℕ) :
    (random_solution rs k).1.getD 2 0 ≤ (random_solution rs k).1.getD 1 0 ∧
    (random_solution rs k).1.getD 1 0 ≤ (random_solution rs k).1.getD 0 0 ∧
    (random_solution rs k).1.getD 0 0 ≤ 100 := by
  have hle : ∀ (b r : ℕ), randint 0 b r ≤ b := by
    intro b r
    have h := Nat.mod_lt r (show 0 < b + 1 by omega)
    simp only [randint, Nat.sub_zero, Nat.zero_add]
    omega
  refine ⟨?_, ?_, ?_⟩ <;>
    simp only [random_solution, List.getD_cons_zero, List.getD_cons_succ] <;>
    apply hle

/-- C10: a feasible candidate of three non-negative integers with
`purchase ≤ 100`, evaluated on uniform draws in `[0, 1)` with a positive
trial count, yields a value that is at least `-purchase_cost * purchase`,
hence at least `-8000`, and strictly greater than the `-1e9` sentinel:
every `units_sold_j` is non-negative, so each per-trial profit is
non-negative and the sentinel can only be returned for infeasible
candidates. -/
theorem evaluate_bounded_below (s : ℤ) (n : ℕ) (p r2 r3 : ℤ) (us : ℕ → ℝ)
    (k : ℕ) (hu : ∀ i, 0 ≤ us i ∧ us i < 1) (hn : 0 < n) (hp0 : 0 ≤ p)
    (h30 : 0 ≤ r3) (h20 : 0 ≤ r2) (h2 : r2 ≤ p) (h3 : r3 ≤ r2)
    (hp100 : p ≤ 100) :
    ∃ v : ℝ,
      ((RevenueManagementProblem.init s).withSims n).evaluate_solution [p, r2, r3] us k =
        Except.ok (v, k + 4 * n) ∧
      -(80 * (p : ℝ)) ≤ v ∧ (-8000 : ℝ) ≤ v ∧ (-1e9 : ℝ) < v := by
  refine ⟨_, evaluate_closed_form s n p r2 r3 us k hu h2 h3, ?_, ?_, ?_⟩
  all_goals
    have hS : 0 ≤ ∑ t in Finset.range n, ((specTrialProfit p r2 r3 us (k + 4 * t) : ℤ) : ℝ) :=
      Finset.sum_nonneg fun t _ => by
        exact_mod_cast specTrialProfit_nonneg p r2 r3 us hu (k + 4 * t)
  all_goals
    have hdiv : 0 ≤ (∑ t in Finset.range n, ((specTrialProfit p r2 r3 us (k + 4 * t) : ℤ) : ℝ)) / (n : ℝ) :=
      div_nonneg hS (Nat.cast_nonneg n)
  · linarith
  · have hcast : (p : ℝ) ≤ 100 := by exact_mod_cast hp100
    linarith
  · have hcast : (p : ℝ) ≤ 100 := by exact_mod_cast hp100
    have hlit : (-1e9 : ℝ) < -8000 := by norm_num
    linarith

/-- Witness for C10: candidate `[100, 50, 30]`, one trial, all-zero
draws; the returned value `-8000` meets all three bounds. -/
theorem evaluate_bounded_below_witness :
    ∃ v : ℝ,
      ((RevenueManagementProblem.init 0).withSims 1).evaluate_solution [100, 50, 30]
        (fun _ => 0) 0 = Except.ok (v, 0 + 4 * 1) ∧
      -(80 * ((100 : ℤ) : ℝ)) ≤ v ∧ (-8000 : ℝ) ≤ v ∧ (-1e9 : ℝ) < v :=
  evaluate_bounded_below 0 1 100 50 30 (fun _ => 0) 0
    (fun _ => ⟨le_rfl, one_pos⟩) one_pos (by norm_num) (by norm_num)
    (by norm_num) (by norm_num) (by norm_num) (by norm_num)
